import Mathlib

/-!
# Verification of the Supplychain Watchtower pipeline

A shallow embedding of `src/watchtower.py` (ortelius/supplychain-watchtower)
together with proofs about the properties stated in the specification.

Modelling conventions:

* Python strings are modelled as `List Char` where character-level reasoning
  is needed (the URL parser) and as `String` elsewhere.
* Python `str.strip()` strips the ASCII whitespace characters; we model the
  set of characters actually relevant here.
* Python dictionaries are modelled as insertion-ordered association lists
  with the usual first-match lookup and replace-in-place-or-append update.
* Fallible Python code (raised exceptions, `die()`) is modelled with
  `Except String`; an uncaught exception is an `Except.error` value that
  propagates out of the embedded `main` loop.
* The remote GitHub API (`gh.get_repo`, `repo.get_releases`,
  `repo.get_tags`) is an opaque collaborator; its three observable outcomes
  per repository are modelled by the `RepoData` record, and each fallible
  call by `Except Unit`.
* YAML documents are modelled at the value level by the `PyVal` inductive;
  `yaml.safe_dump(..., sort_keys=True)` is modelled as sorting an
  association list by key, `yaml.safe_load` as the identity on the stored
  association list.
-/

deriving instance DecidableEq for Except

/-! ## Python string primitives (over `List Char`) -/

/-- The whitespace characters stripped by Python `str.strip()`
(space, tab, newline, carriage return, vertical tab, form feed). -/
def isPySpace (c : Char) : Bool :=
  c == ' ' || c == '\t' || c == '\n' || c == '\r' || c == '\x0b' || c == '\x0c'

/-- Python `s.strip()`: drop leading and trailing whitespace. -/
def pyStrip (l : List Char) : List Char :=
  ((l.dropWhile isPySpace).reverse.dropWhile isPySpace).reverse

/-- Python `s.strip("/")`: drop leading and trailing slashes. -/
def stripSlashes (l : List Char) : List Char :=
  ((l.dropWhile (· == '/')).reverse.dropWhile (· == '/')).reverse

/-- Python `s.split(ch)[0]`: everything before the first occurrence of `ch`. -/
def takeBefore (ch : Char) (l : List Char) : List Char :=
  l.takeWhile (fun c => c != ch)

/-- If `sep` is a prefix of `l`, return the rest of `l` after it.
Used to model Python `s.startswith(p)` together with `s.split(p, 1)[1]`. -/
def dropPrefixL : List Char → List Char → Option (List Char)
  | [], l => some l
  | _ :: _, [] => none
  | a :: as, b :: bs => if a = b then dropPrefixL as bs else none

/-- First occurrence split: `splitFirst sep l = some (before, after)` when
`sep` occurs in `l` (models Python `sep in s` and `s.split(sep, 1)`). -/
def splitFirst (sep : List Char) : List Char → Option (List Char × List Char)
  | [] => (dropPrefixL sep []).map (fun r => ([], r))
  | c :: rest =>
    match dropPrefixL sep (c :: rest) with
    | some r => some ([], r)
    | none => (splitFirst sep rest).map (fun p => (c :: p.1, p.2))

/-- Python `u[:-4] if u.endswith(".git") else u`, via the reversed list. -/
def stripDotGit (l : List Char) : List Char :=
  match dropPrefixL ['t', 'i', 'g', '.'] l.reverse with
  | some r => r.reverse
  | none => l

/-- Python `s.split(ch)` with a one-character separator: empty pieces are
kept and the empty string splits to `[""]`. -/
def splitChar (ch : Char) : List Char → List (List Char)
  | [] => [[]]
  | c :: rest =>
    if c = ch then [] :: splitChar ch rest
    else
      match splitChar ch rest with
      | [] => [[c]]
      | s :: ss => (c :: s) :: ss

/-! ## The URL parser (`parse_repo_url`, watchtower.py lines 156-183) -/

/-- The SSH prefix literal of the source. -/
def sshPrefix : List Char := ['g', 'i', 't', '@', 'g', 'i', 't', 'h', 'u', 'b', '.', 'c', 'o', 'm', ':']

/-- The HTTPS marker literal of the source. -/
def ghMarker : List Char := ['g', 'i', 't', 'h', 'u', 'b', '.', 'c', 'o', 'm', '/']

/-- The normalisation steps of `parse_repo_url` before the final split:
strip whitespace, strip the SSH prefix, cut at the first `github.com/`,
cut fragment and query, strip slashes, strip one trailing `.git`. -/
def normalizeUrl (url : List Char) : List Char :=
  let u0 := pyStrip url
  let u1 := match dropPrefixL sshPrefix u0 with
    | some r => r
    | none => u0
  let u2 := match splitFirst ghMarker u1 with
    | some p => p.2
    | none => u1
  let u3 := stripSlashes (takeBefore '?' (takeBefore '#' u2))
  stripDotGit u3

/-- `parse_repo_url` over `List Char`: split the normalised remainder on
`'/'` and take the first two pieces; fewer than two pieces is a
`ValueError`. -/
def parseRepoUrlL (url : List Char) : Except String (List Char × List Char) :=
  match splitChar '/' (normalizeUrl url) with
  | owner :: repo :: _ => .ok (owner, repo)
  | _ => .error "Could not parse GitHub repo from URL"

/-- `parse_repo_url` at the `String` level. -/
def parse_repo_url (url : String) : Except String (String × String) :=
  match parseRepoUrlL url.data with
  | .ok (o, n) => .ok (String.mk o, String.mk n)
  | .error e => .error e

/-! ## Version resolution (`latest_version_for_repo`, lines 186-227) -/

/-- One GitHub release as consumed by the source: the `draft` and
`prerelease` flags and the possibly-missing `tag_name` and `title`. -/
structure Release where
  draft : Bool
  prerelease : Bool
  tag_name : Option String
  title : Option String
deriving DecidableEq

/-- One GitHub tag as consumed by the source. -/
structure RepoTag where
  name : String
deriving DecidableEq

/-- Python truthiness of an optional string (`None` and `""` are falsy). -/
def truthyStr : Option String → Bool
  | none => false
  | some s => s != ""

/-- The release loop of `latest_version_for_repo` (lines 206-215): skip
drafts, skip prereleases unless the flag is set, return the first truthy
`tag_name`, else the first truthy `title`, else keep scanning. -/
def releaseScan (incPre : Bool) : List Release → Option String
  | [] => none
  | rel :: rest =>
    if rel.draft then releaseScan incPre rest
    else if !incPre && rel.prerelease then releaseScan incPre rest
    else if truthyStr rel.tag_name then rel.tag_name
    else if truthyStr rel.title then rel.title
    else releaseScan incPre rest

/-- The per-repository view of the remote API: whether `get_repo`,
`get_releases` and `get_tags` succeed, and with what. -/
structure RepoData where
  repoOk : Except Unit Unit
  releases : Except Unit (List Release)
  tags : Except Unit (List RepoTag)

/-- The tag fallback (lines 220-227): the first tag name if the tag list
is available and non-empty, absence otherwise. -/
def firstTagName : Except Unit (List RepoTag) → Option String
  | .ok (t :: _) => some t.name
  | .ok [] => none
  | .error _ => none

/-- `latest_version_for_repo` after a successful URL parse: `get_repo`
failure gives absence; otherwise scan releases, falling back to tags when
the release list errors or the scan yields nothing. -/
def resolveRepoData (incPre : Bool) (rd : RepoData) : Option String :=
  match rd.repoOk with
  | .error _ => none
  | .ok _ =>
    match rd.releases with
    | .ok rels =>
      match releaseScan incPre rels with
      | some v => some v
      | none => firstTagName rd.tags
    | .error _ => firstTagName rd.tags

/-- `latest_version_for_repo`: the URL parse happens first and its
`ValueError` is not caught anywhere, so it propagates as an error. -/
def latest_version_for_repo (incPre : Bool) (api : String → String → RepoData)
    (repo_url : String) : Except String (Option String) :=
  match parse_repo_url repo_url with
  | .error e => .error e
  | .ok (owner, name) => .ok (resolveRepoData incPre (api owner name))

/-! ## Dictionaries and the main loop (lines 292-348) -/

/-- A Python `Dict[str, str]`: insertion-ordered association list. -/
abbrev StrMap := List (String × String)

/-- First-match lookup, i.e. `d.get(k)`. -/
def dictGet : StrMap → String → Option String
  | [], _ => none
  | p :: rest, k => if p.1 = k then some p.2 else dictGet rest k

/-- `d[k] = v`: replace in place if the key exists, else append. -/
def dictSet : StrMap → String → String → StrMap
  | [], k, v => [(k, v)]
  | p :: rest, k, v => if p.1 = k then (k, v) :: rest else p :: dictSet rest k v

/-- Python `str(entry).strip()` for a watch-list entry. -/
def pyStripS (s : String) : String := String.mk (pyStrip s.data)

/-- The body of the `for repo_url in watch_repos` loop (lines 317-334),
acting on the pair (process_map, state_map).  `resolve` is
`latest_version_for_repo` with its client and flag fixed; a `ValueError`
from it is not caught and aborts the loop. -/
def processEntry (resolve : String → Except String (Option String))
    (acc : StrMap × StrMap) (entry : String) : Except String (StrMap × StrMap) :=
  let url := pyStripS entry
  if url = "" then .ok acc
  else
    match resolve url with
    | .error e => .error e
    | .ok none => .ok acc
    | .ok (some v) =>
      if v = "" then .ok acc
      else if dictGet acc.2 url = some v then .ok acc
      else .ok (dictSet acc.1 url v, dictSet acc.2 url v)

/-- The main loop over the watch list. -/
def runLoop (resolve : String → Except String (Option String)) :
    List String → StrMap × StrMap → Except String (StrMap × StrMap)
  | [], acc => .ok acc
  | e :: rest, acc =>
    match processEntry resolve acc e with
    | .ok acc' => runLoop resolve rest acc'
    | .error err => .error err

/-- One run of the pipeline from a loaded state map: `process_map` starts
empty, `state_map` starts at the persisted state; the result is the pair
written to `process.yaml` and `state.yaml` (or the uncaught exception). -/
def runOnce (resolve : String → Except String (Option String))
    (watch : List String) (st : StrMap) : Except String (StrMap × StrMap) :=
  runLoop resolve watch ([], st)

/-! ## Persistence (`dump_yaml` / `load_yaml` on the state document,
lines 100-153).  `yaml.safe_dump(..., sort_keys=True)` serialises the
mapping with its keys in sorted order; reading the document back yields
the key-value pairs in stored order. -/

/-- Comparison of two entries by key, as `sort_keys=True` orders them. -/
def keyLE (a b : String × String) : Prop := a.1 ≤ b.1

instance : DecidableRel keyLE := fun a b => inferInstanceAs (Decidable (a.1 ≤ b.1))

/-- The state document written by `dump_yaml`: the entries of the map,
sorted by key (`sort_keys=True`). -/
def dumpDoc (m : StrMap) : StrMap := List.insertionSort keyLE m

/-- Reading a state document back (`yaml.safe_load`): the stored pairs in
document order. -/
def loadDoc (doc : StrMap) : StrMap := doc

/-- A stub API environment for concrete runs. -/
def stubApi : String → String → RepoData := fun _ _ => ⟨.ok (), .ok [], .ok []⟩

/-- A stub resolver for concrete runs. -/
def resolveW : String → Except String (Option String) := fun _ => .ok (some "v1")

/-! Sanity checks of the embedding on the concrete inputs of the spec. -/

example : parse_repo_url "https://github.com/owner/repo" = .ok ("owner", "repo") := by decide
example : parse_repo_url "https://github.com/owner/repo.git" = .ok ("owner", "repo") := by decide
example : parse_repo_url "git@github.com:owner/repo.git" = .ok ("owner", "repo") := by decide
example : parse_repo_url "nourl" = .error "Could not parse GitHub repo from URL" := by decide
example : parse_repo_url "owner//repo" = .ok ("owner", "") := by decide
example :
    releaseScan false
      [⟨true, false, some "v3.0.0", none⟩, ⟨false, true, some "v2.9.0", none⟩,
        ⟨false, false, some "v2.8.0", none⟩] = some "v2.8.0" := by decide
example :
    resolveRepoData false ⟨.ok (), .ok [], .ok [⟨"v1.0.0"⟩, ⟨"v0.9.0"⟩]⟩ = some "v1.0.0" := by
  decide
example :
    runOnce resolveW ["https://github.com/acme/widget"] [] =
      .ok ([("https://github.com/acme/widget", "v1")], [("https://github.com/acme/widget", "v1")]) := by
  decide

/-! ## Release filtering lemmas -/

/-- A release survives the two filters of the release loop: it is not a
draft, and it is not a prerelease unless the flag is set. -/
def survivesFilters (incPre : Bool) (r : Release) : Bool :=
  !r.draft && (incPre || !r.prerelease)

lemma releaseScan_cons_skip (incPre : Bool) (r0 : Release) (rest : List Release)
    (h : survivesFilters incPre r0 = false) :
    releaseScan incPre (r0 :: rest) = releaseScan incPre rest := by
  simp only [survivesFilters, Bool.and_eq_false_iff, Bool.not_eq_false',
    Bool.or_eq_false_iff, Bool.not_eq_false] at h
  rcases h with h | ⟨h1, h2⟩
  · simp [releaseScan, h]
  · by_cases hd : r0.draft = true
    · simp [releaseScan, hd]
    · simp only [Bool.not_eq_true] at hd
      simp [releaseScan, hd, h1, h2]

lemma releaseScan_cons_surv (incPre : Bool) (r0 : Release) (rest : List Release)
    (h : survivesFilters incPre r0 = true) :
    releaseScan incPre (r0 :: rest) =
      if truthyStr r0.tag_name then r0.tag_name
      else if truthyStr r0.title then r0.title
      else releaseScan incPre rest := by
  simp only [survivesFilters, Bool.and_eq_true, Bool.not_eq_true'] at h
  obtain ⟨hd, hor⟩ := h
  have h2 : (!incPre && r0.prerelease) = false := by
    cases incPre with
    | true => simp
    | false =>
      simp only [Bool.false_or, Bool.not_eq_true'] at hor
      simp [hor]
  simp [releaseScan, hd, h2]

lemma releaseScan_eq_none_of_find?_none (incPre : Bool) (rels : List Release)
    (h : rels.find? (survivesFilters incPre) = none) :
    releaseScan incPre rels = none := by
  induction rels with
  | nil => rfl
  | cons r0 rest ih =>
    by_cases hs : survivesFilters incPre r0 = true
    · rw [List.find?_cons_of_pos _ hs] at h
      cases h
    · have hs' : survivesFilters incPre r0 = false := by
        simpa using hs
      rw [List.find?_cons_of_neg _ (by simp [hs'])] at h
      rw [releaseScan_cons_skip _ _ _ hs']
      exact ih h

/-- C2: the version resolver iterates the releases in the given order,
skips drafts, skips prereleases unless the flag is set, and answers with
the first surviving release: its tag label, or, when the tag label is
absent, its display title; the scenario with a draft, a prerelease and a
plain release resolves to the plain release tag `v2.8.0`. -/
theorem c2_release_filtering (incPre : Bool) (rels : List Release) (r : Release)
    (hfind : rels.find? (survivesFilters incPre) = some r) :
    ((∀ t, r.tag_name = some t → t ≠ "" → releaseScan incPre rels = some t) ∧
      (truthyStr r.tag_name = false →
        ∀ t, r.title = some t → t ≠ "" → releaseScan incPre rels = some t)) ∧
    releaseScan false
        [⟨true, false, some "v3.0.0", none⟩, ⟨false, true, some "v2.9.0", none⟩,
          ⟨false, false, some "v2.8.0", none⟩] = some "v2.8.0" := by
  refine ⟨?_, by decide⟩
  induction rels with
  | nil => cases hfind
  | cons r0 rest ih =>
    by_cases hs : survivesFilters incPre r0 = true
    · rw [List.find?_cons_of_pos _ hs] at hfind
      injection hfind with hfeq
      subst hfeq
      rw [releaseScan_cons_surv _ _ _ hs]
      constructor
      · intro t ht hne
        rw [ht]
        simp [truthyStr, hne]
      · intro hfalse t ht hne
        rw [hfalse, ht]
        simp [truthyStr, hne]
    · have hs' : survivesFilters incPre r0 = false := by
        simpa using hs
      rw [List.find?_cons_of_neg _ (by simp [hs'])] at hfind
      rw [releaseScan_cons_skip _ _ _ hs']
      exact ih hfind

/-- Witness for C2 at the scenario input: the plain release of the
scenario list is the first survivor and its tag is the answer. -/
theorem c2_release_filtering_witness :
    releaseScan false
        [⟨true, false, some "v3.0.0", none⟩, ⟨false, true, some "v2.9.0", none⟩,
          ⟨false, false, some "v2.8.0", none⟩] = some "v2.8.0" :=
  ((c2_release_filtering false
        [⟨true, false, some "v3.0.0", none⟩, ⟨false, true, some "v2.9.0", none⟩,
          ⟨false, false, some "v2.8.0", none⟩]
        ⟨false, false, some "v2.8.0", none⟩ (by decide)).1.1 "v2.8.0" rfl (by decide))

/-- C5: when the release list is unavailable or no release survives the
filters, the resolver answers with the first tag name; when the tag list
also fails or is empty the answer is absence; the scenario with zero
releases and tags `v1.0.0, v0.9.0` resolves to `v1.0.0`. -/
theorem c5_tag_fallback (incPre : Bool) (rd : RepoData)
    (hrepo : rd.repoOk = .ok ())
    (hrel : rd.releases = .error () ∨
      ∃ rels, rd.releases = .ok rels ∧ rels.find? (survivesFilters incPre) = none) :
    (resolveRepoData incPre rd = firstTagName rd.tags ∧
      ((rd.tags = .error () ∨ rd.tags = .ok []) → resolveRepoData incPre rd = none)) ∧
    resolveRepoData false ⟨.ok (), .ok [], .ok [⟨"v1.0.0"⟩, ⟨"v0.9.0"⟩]⟩ = some "v1.0.0" := by
  have hmain : resolveRepoData incPre rd = firstTagName rd.tags := by
    obtain ⟨ro, rr, rt⟩ := rd
    simp only at hrepo hrel
    subst hrepo
    rcases hrel with h | ⟨rels, heq, hnone⟩
    · subst h
      simp [resolveRepoData]
    · subst heq
      simp [resolveRepoData, releaseScan_eq_none_of_find?_none _ _ hnone]
  refine ⟨⟨hmain, fun htags => ?_⟩, by decide⟩
  rw [hmain]
  rcases htags with h | h <;> simp [firstTagName, h]

/-- Witness for C5: repository accessible, release listing fails, first
tag answers; and with an empty tag list the answer is absence. -/
theorem c5_tag_fallback_witness :
    resolveRepoData false ⟨.ok (), .error (), .ok [⟨"v1.0.0"⟩, ⟨"v0.9.0"⟩]⟩ =
        firstTagName (.ok [⟨"v1.0.0"⟩, ⟨"v0.9.0"⟩]) :=
  (c5_tag_fallback false ⟨.ok (), .error (), .ok [⟨"v1.0.0"⟩, ⟨"v0.9.0"⟩]⟩ rfl
    (Or.inl rfl)).1.1

/-! ## C1: an unparseable watch entry aborts the whole run -/

/-- C1 (shown false of the code, the claim being a stated spec
requirement): `parse_repo_url` raises `ValueError` for an entry with
fewer than two path segments, `latest_version_for_repo` calls it outside
any `try`, and `main` does not catch it either, so the embedded run
returns the uncaught error instead of skipping the entry and returning
exit code 0. -/
theorem c1_parse_failure_crashes_run :
    runOnce (latest_version_for_repo false stubApi) ["nourl"] [] =
        .error "Could not parse GitHub repo from URL" ∧
      parse_repo_url "nourl" = .error "Could not parse GitHub repo from URL" := by
  decide

/-! ## C4: every changed entry is in the final state with the same value -/

lemma dictGet_dictSet (m : StrMap) (k : String) (v : String) (k' : String) :
    dictGet (dictSet m k v) k' = if k' = k then some v else dictGet m k' := by
  induction m with
  | nil =>
    by_cases hk : k' = k
    · subst hk
      simp [dictGet, dictSet]
    · simp only [dictSet, dictGet]
      rw [if_neg (fun h => hk h.symm), if_neg hk]
  | cons p rest ih =>
    simp only [dictSet]
    by_cases hp : p.1 = k
    · rw [if_pos hp]
      simp only [dictGet]
      by_cases hk : k = k'
      · rw [if_pos hk, if_pos hk.symm]
      · rw [if_neg hk, if_neg (fun h => hk h.symm),
          if_neg (fun h : p.1 = k' => hk (hp.symm.trans h))]
    · rw [if_neg hp]
      simp only [dictGet, ih]
      by_cases hq : p.1 = k'
      · have hk : ¬ k' = k := fun h => hp (hq.trans h)
        rw [if_pos hq, if_neg hk, if_pos hq]
      · by_cases hk : k' = k
        · rw [if_neg hq, if_pos hk, if_pos hk]
        · rw [if_neg hq, if_neg hk, if_neg hk, if_neg hq]

lemma processEntry_preserves (resolve : String → Except String (Option String))
    (acc acc' : StrMap × StrMap) (e : String)
    (h : processEntry resolve acc e = .ok acc')
    (hinv : ∀ k v, dictGet acc.1 k = some v → dictGet acc.2 k = some v) :
    ∀ k v, dictGet acc'.1 k = some v → dictGet acc'.2 k = some v := by
  simp only [processEntry] at h
  split at h
  · injection h with h
    subst h
    exact hinv
  · split at h
    · cases h
    · injection h with h
      subst h
      exact hinv
    · split at h
      · injection h with h
        subst h
        exact hinv
      · split at h
        · injection h with h
          subst h
          exact hinv
        · injection h with h
          subst h
          intro k v' hk
          rw [dictGet_dictSet] at hk ⊢
          split at hk
          · rw [if_pos (by assumption)]
            exact hk
          · rw [if_neg (by assumption)]
            exact hinv _ _ hk

lemma runLoop_preserves (resolve : String → Except String (Option String))
    (l : List String) :
    ∀ acc fin, runLoop resolve l acc = .ok fin →
      (∀ k v, dictGet acc.1 k = some v → dictGet acc.2 k = some v) →
      ∀ k v, dictGet fin.1 k = some v → dictGet fin.2 k = some v := by
  induction l with
  | nil =>
    intro acc fin h hinv
    injection h with h
    subst h
    exact hinv
  | cons e rest ih =>
    intro acc fin h hinv
    simp only [runLoop] at h
    cases hpe : processEntry resolve acc e with
    | error err => rw [hpe] at h; cases h
    | ok acc' =>
      rw [hpe] at h
      exact ih acc' fin h (processEntry_preserves resolve acc acc' e hpe hinv)

/-- C4: after a completed run, every key of the changed-entries map is
also a key of the written state map, bound to the same value. -/
theorem c4_process_subset_state (resolve : String → Except String (Option String))
    (watch : List String) (st0 p1 st1 : StrMap)
    (h : runOnce resolve watch st0 = .ok (p1, st1)) :
    ∀ k v, dictGet p1 k = some v → dictGet st1 k = some v :=
  runLoop_preserves resolve watch ([], st0) (p1, st1) h
    (fun k v hkv => by simp [dictGet] at hkv)

/-- Witness for C4 on a concrete one-entry run. -/
theorem c4_process_subset_state_witness : dictGet [("u", "v1")] "u" = some "v1" :=
  c4_process_subset_state resolveW ["u"] [] [("u", "v1")] [("u", "v1")] (by decide)
    "u" "v1" (by decide)

/-! ## C6: a second run with an unchanged resolver changes nothing -/

/-- The state map agrees with the resolver on URL `u`: whatever truthy
version the resolver reports for `u` is already recorded. -/
def Consistent (resolve : String → Except String (Option String))
    (st : StrMap) (u : String) : Prop :=
  ∀ v, resolve u = .ok (some v) → v ≠ "" → dictGet st u = some v

lemma processEntry_state_cases (resolve : String → Except String (Option String))
    (acc acc' : StrMap × StrMap) (e : String)
    (h : processEntry resolve acc e = .ok acc') :
    acc' = acc ∨
      ∃ v, pyStripS e ≠ "" ∧ resolve (pyStripS e) = .ok (some v) ∧ v ≠ "" ∧
        acc' = (dictSet acc.1 (pyStripS e) v, dictSet acc.2 (pyStripS e) v) := by
  simp only [processEntry] at h
  split at h
  · injection h with h
    exact Or.inl h.symm
  · rename_i hb
    split at h
    · exact Except.noConfusion h
    · rename_i heq
      injection h with h
      exact Or.inl h.symm
    · rename_i v heq
      split at h
      · injection h with h
        exact Or.inl h.symm
      · rename_i hv
        split at h
        · injection h with h
          exact Or.inl h.symm
        · injection h with h
          exact Or.inr ⟨v, hb, heq, hv, h.symm⟩

lemma consistent_mono (resolve : String → Except String (Option String))
    (acc acc' : StrMap × StrMap) (e : String)
    (h : processEntry resolve acc e = .ok acc') (u : String)
    (hc : Consistent resolve acc.2 u) : Consistent resolve acc'.2 u := by
  rcases processEntry_state_cases resolve acc acc' e h with rfl | ⟨v, hb, hr, hv, rfl⟩
  · exact hc
  · intro v' hv' hne
    show dictGet (dictSet acc.2 (pyStripS e) v) u = some v'
    rw [dictGet_dictSet]
    by_cases hu : u = pyStripS e
    · subst hu
      rw [hr] at hv'
      injection hv' with h1
      injection h1 with h2
      rw [if_pos rfl, h2]
    · rw [if_neg hu]
      exact hc v' hv' hne

lemma processEntry_consistent (resolve : String → Except String (Option String))
    (acc acc' : StrMap × StrMap) (e : String)
    (h : processEntry resolve acc e = .ok acc') (hb : pyStripS e ≠ "") :
    Consistent resolve acc'.2 (pyStripS e) := by
  simp only [processEntry] at h
  rw [if_neg hb] at h
  split at h
  · exact Except.noConfusion h
  · rename_i heq
    intro v hv hne
    rw [heq] at hv
    injection hv with h1
    exact Option.noConfusion h1
  · rename_i v heq
    split at h
    · rename_i hv0
      intro v' hv' hne
      rw [heq] at hv'
      injection hv' with h1
      injection h1 with h2
      exact absurd (h2.symm.trans hv0) hne
    · rename_i hv0
      split at h
      · rename_i hc
        injection h with h
        intro v' hv' hne
        rw [heq] at hv'
        injection hv' with h1
        injection h1 with h2
        rw [← h]
        show dictGet acc.2 (pyStripS e) = some v'
        rw [hc, h2]
      · injection h with h
        intro v' hv' hne
        rw [heq] at hv'
        injection hv' with h1
        injection h1 with h2
        rw [← h]
        show dictGet (dictSet acc.2 (pyStripS e) v) (pyStripS e) = some v'
        rw [dictGet_dictSet, if_pos rfl, h2]

lemma runLoop_consistent_mono (resolve : String → Except String (Option String))
    (l : List String) :
    ∀ acc fin, runLoop resolve l acc = .ok fin →
      ∀ u, Consistent resolve acc.2 u → Consistent resolve fin.2 u := by
  induction l with
  | nil =>
    intro acc fin h u hc
    injection h with h
    exact h ▸ hc
  | cons e rest ih =>
    intro acc fin h u hc
    simp only [runLoop] at h
    cases hpe : processEntry resolve acc e with
    | error err => rw [hpe] at h; cases h
    | ok acc' =>
      rw [hpe] at h
      exact ih acc' fin h u (consistent_mono resolve acc acc' e hpe u hc)

lemma runLoop_establishes (resolve : String → Except String (Option String))
    (l : List String) :
    ∀ acc fin, runLoop resolve l acc = .ok fin →
      ∀ e ∈ l, pyStripS e ≠ "" → Consistent resolve fin.2 (pyStripS e) := by
  induction l with
  | nil =>
    intro acc fin _ e he
    cases he
  | cons e0 rest ih =>
    intro acc fin h e he hb
    simp only [runLoop] at h
    cases hpe : processEntry resolve acc e0 with
    | error err => rw [hpe] at h; cases h
    | ok acc' =>
      rw [hpe] at h
      rcases List.mem_cons.1 he with rfl | hmem
      · exact runLoop_consistent_mono resolve rest acc' fin h _
          (processEntry_consistent resolve acc acc' e hpe hb)
      · exact ih acc' fin h e hmem hb

lemma runLoop_no_errors (resolve : String → Except String (Option String))
    (l : List String) :
    ∀ acc fin, runLoop resolve l acc = .ok fin →
      ∀ e ∈ l, pyStripS e ≠ "" → ∃ r, resolve (pyStripS e) = .ok r := by
  induction l with
  | nil =>
    intro acc fin _ e he
    cases he
  | cons e0 rest ih =>
    intro acc fin h e he hb
    simp only [runLoop] at h
    cases hpe : processEntry resolve acc e0 with
    | error err => rw [hpe] at h; cases h
    | ok acc' =>
      rw [hpe] at h
      rcases List.mem_cons.1 he with rfl | hmem
      · simp only [processEntry] at hpe
        rw [if_neg hb] at hpe
        split at hpe
        · exact Except.noConfusion hpe
        · rename_i heq
          exact ⟨none, heq⟩
        · rename_i v heq
          exact ⟨some v, heq⟩
      · exact ih acc' fin h e hmem hb

lemma runLoop_stable (resolve : String → Except String (Option String))
    (l : List String) (st : StrMap)
    (hcons : ∀ e ∈ l, pyStripS e ≠ "" → Consistent resolve st (pyStripS e))
    (herr : ∀ e ∈ l, pyStripS e ≠ "" → ∃ r, resolve (pyStripS e) = .ok r) :
    ∀ p, runLoop resolve l (p, st) = .ok (p, st) := by
  induction l with
  | nil => intro p; rfl
  | cons e rest ih =>
    intro p
    have hstep : processEntry resolve (p, st) e = .ok (p, st) := by
      simp only [processEntry]
      by_cases hb : pyStripS e = ""
      · rw [if_pos hb]
      · rw [if_neg hb]
        obtain ⟨r, hr⟩ := herr e (List.mem_cons_self e rest) hb
        rw [hr]
        cases r with
        | none => rfl
        | some v =>
          show (if v = "" then Except.ok ((p, st) : StrMap × StrMap)
            else if dictGet (p, st).2 (pyStripS e) = some v then Except.ok (p, st)
            else Except.ok (dictSet (p, st).1 (pyStripS e) v,
              dictSet (p, st).2 (pyStripS e) v)) = Except.ok (p, st)
          by_cases hv : v = ""
          · rw [if_pos hv]
          · rw [if_neg hv]
            have hagree := hcons e (List.mem_cons_self e rest) hb v hr hv
            rw [if_pos hagree]
    simp only [runLoop, hstep]
    exact ih (fun e' he' hb' => hcons e' (List.mem_cons_of_mem e he') hb')
      (fun e' he' hb' => herr e' (List.mem_cons_of_mem e he') hb') p

/-- C6: if a run completes and the resolver answers the same on a second
run, the second run produces an empty changed-map and exactly the same
state map, so the re-serialised state document is byte-identical. -/
theorem c6_second_run_empty (resolve : String → Except String (Option String))
    (watch : List String) (st0 p1 st1 : StrMap)
    (h : runOnce resolve watch st0 = .ok (p1, st1)) :
    runOnce resolve watch st1 = .ok ([], st1) ∧
      ∀ p2 st2, runOnce resolve watch st1 = .ok (p2, st2) →
        p2 = [] ∧ dumpDoc st2 = dumpDoc st1 := by
  have hmain : runOnce resolve watch st1 = .ok ([], st1) := by
    have hcons := runLoop_establishes resolve watch ([], st0) (p1, st1) h
    have herr := runLoop_no_errors resolve watch ([], st0) (p1, st1) h
    exact runLoop_stable resolve watch st1 hcons herr []
  refine ⟨hmain, fun p2 st2 h2 => ?_⟩
  rw [hmain] at h2
  injection h2 with h2
  injection h2 with hp hs
  exact ⟨hp.symm, by rw [hs]⟩

/-- Witness for C6 on a concrete one-entry run. -/
theorem c6_second_run_empty_witness :
    runOnce resolveW ["u"] [("u", "v1")] = .ok ([], [("u", "v1")]) :=
  (c6_second_run_empty resolveW ["u"] [] [("u", "v1")] [("u", "v1")] (by decide)).1

/-! ## YAML values and the two loaders (lines 100-126, 273-286, 297-307) -/

/-- A parsed YAML value as Python sees it. -/
inductive PyVal where
  | null : PyVal
  | bool : Bool → PyVal
  | int : Int → PyVal
  | str : String → PyVal
  | list : List PyVal → PyVal
  | dict : List (String × PyVal) → PyVal

/-- Python truthiness of a YAML value. -/
def pyTruthy : PyVal → Bool
  | .null => false
  | .bool b => b
  | .int n => n != 0
  | .str s => s != ""
  | .list l => !l.isEmpty
  | .dict d => !d.isEmpty

/-- `load_yaml(path, default)` (lines 100-126): a missing file gives the
default, and a falsy parse result (empty file, `null` document) gives the
default via `safe_load(f) or default`. -/
def load_yaml (file : Option PyVal) (default : PyVal) : PyVal :=
  match file with
  | none => default
  | some v => if pyTruthy v then v else default

/-- First-match lookup in a YAML mapping. -/
def dictGetP : List (String × PyVal) → String → Option PyVal
  | [], _ => none
  | p :: rest, k => if p.1 = k then some p.2 else dictGetP rest k

/-- Python `data.get(k)`: `None` for a missing key of a mapping, an
uncaught `AttributeError` when `data` is not a mapping. -/
def pyGet (v : PyVal) (k : String) : Except String PyVal :=
  match v with
  | .dict d =>
    .ok (match dictGetP d k with
      | some x => x
      | none => .null)
  | _ => .error "AttributeError"

/-- The single-file branch of `load_watch_repositories` (lines 273-280):
`repos = data.get("repositories") or []`, then `die` unless it is a list. -/
def loadWatchFromFile (file : Option PyVal) : Except String (List PyVal) :=
  match pyGet (load_yaml file (.dict [])) "repositories" with
  | .error e => .error e
  | .ok raw =>
    let repos := if pyTruthy raw then raw else PyVal.list []
    match repos with
    | .list l => .ok l
    | _ => .error "must contain a top-level repositories list"

/-- The watch-list phase of `main` for a single watch file: the loader
followed by the `if not watch_repos: die(...)` check (lines 297-299). -/
def watchPhase (file : Option PyVal) : Except String (List PyVal) :=
  match loadWatchFromFile file with
  | .error e => .error e
  | .ok l => if l.isEmpty then .error "No repositories found" else .ok l

/-- The state-loading lines of `main` (302-307): any missing, empty or
malformed state collapses to the empty mapping. -/
def loadStateMap (file : Option PyVal) : List (String × PyVal) :=
  let state := load_yaml file (.dict [])
  let state_map : PyVal :=
    match state with
    | .dict d =>
      (match dictGetP d "repositories" with
        | some raw => if pyTruthy raw then raw else .dict []
        | none => .dict [])
    | _ => .dict []
  match state_map with
  | .dict m => m
  | _ => []

lemma load_yaml_dict (d : List (String × PyVal)) :
    load_yaml (some (.dict d)) (.dict []) = .dict d := by
  cases d with
  | nil => rfl
  | cons p rest => rfl

/-- C9: with a single watch file, a missing `repositories` field, or a
`repositories` field that is not a list, terminates the run with an
error; a non-empty list is read directly. -/
theorem c9_watch_file_fatal (d : List (String × PyVal)) :
    (dictGetP d "repositories" = none →
      watchPhase (some (.dict d)) = .error "No repositories found") ∧
    (∀ v, dictGetP d "repositories" = some v → (∀ l, v ≠ PyVal.list l) →
      ∃ msg, watchPhase (some (.dict d)) = .error msg) ∧
    (∀ l, dictGetP d "repositories" = some (.list l) → l ≠ [] →
      watchPhase (some (.dict d)) = .ok l) := by
  refine ⟨?_, ?_, ?_⟩
  · intro hnone
    simp [watchPhase, loadWatchFromFile, load_yaml_dict, pyGet, hnone, pyTruthy]
  · intro v hget hnl
    simp only [watchPhase, loadWatchFromFile, load_yaml_dict, pyGet, hget]
    by_cases ht : pyTruthy v = true
    · simp only [ht, if_true]
      cases v with
      | list l => exact absurd rfl (hnl l)
      | null => exact ⟨_, rfl⟩
      | bool b => exact ⟨_, rfl⟩
      | int n => exact ⟨_, rfl⟩
      | str s => exact ⟨_, rfl⟩
      | dict dd => exact ⟨_, rfl⟩
    · have ht' : pyTruthy v = false := by simpa using ht
      simp [ht']
  · intro l hget hne
    have hl : pyTruthy (.list l) = true := by
      cases l with
      | nil => exact absurd rfl hne
      | cons x xs => rfl
    have hemp : l.isEmpty = false := by
      cases l with
      | nil => exact absurd rfl hne
      | cons x xs => rfl
    simp [watchPhase, loadWatchFromFile, load_yaml_dict, pyGet, hget, hl, hemp]

/-- Witness for C9: a file without the field dies in the main check, and
one with a string-valued field dies in the loader. -/
theorem c9_watch_file_fatal_witness :
    watchPhase (some (.dict [("x", .str "y")])) = .error "No repositories found" ∧
      ∃ msg, watchPhase (some (.dict [("repositories", .str "nope")])) = .error msg :=
  ⟨(c9_watch_file_fatal [("x", .str "y")]).1 rfl,
    (c9_watch_file_fatal [("repositories", .str "nope")]).2.1 (.str "nope") rfl
      (fun _ h => PyVal.noConfusion h)⟩

/-- C10: loading the persisted state never fails: a missing file, an
empty or null document, a non-mapping document, a missing `repositories`
field, or a non-mapping `repositories` field all yield the empty state
map, and the run proceeds. -/
theorem c10_state_load_resilient :
    loadStateMap none = [] ∧
    loadStateMap (some .null) = [] ∧
    (∀ v : PyVal, (∀ d, v ≠ .dict d) → loadStateMap (some v) = []) ∧
    (∀ d, dictGetP d "repositories" = none → loadStateMap (some (.dict d)) = []) ∧
    (∀ d v, dictGetP d "repositories" = some v → (∀ m, v ≠ .dict m) →
      loadStateMap (some (.dict d)) = []) := by
  refine ⟨rfl, rfl, ?_, ?_, ?_⟩
  · intro v hnd
    cases v with
    | dict dd => exact absurd rfl (hnd dd)
    | null => rfl
    | bool b => cases b <;> rfl
    | int n =>
      simp only [loadStateMap, load_yaml, pyTruthy]
      by_cases hz : (n != 0) = true <;> simp [hz, dictGetP]
    | str s =>
      simp only [loadStateMap, load_yaml, pyTruthy]
      by_cases hz : (s != "") = true <;> simp [hz, dictGetP]
    | list l => cases l <;> rfl
  · intro d hnone
    simp [loadStateMap, load_yaml_dict, hnone]
  · intro d v hget hnd
    simp only [loadStateMap, load_yaml_dict, hget]
    cases v with
    | dict m => exact absurd rfl (hnd m)
    | null => rfl
    | bool b => cases b <;> rfl
    | int n => by_cases hz : (n != 0) = true <;> simp [pyTruthy, hz]
    | str s => by_cases hz : (s != "") = true <;> simp [pyTruthy, hz]
    | list l => cases l <;> rfl

/-! ## C7: round-trip of the state document -/

/-- The keys of the map are pairwise distinct (a Python dict always
satisfies this). -/
abbrev NodupKeys (m : StrMap) : Prop := (m.map Prod.fst).Nodup

/-- Strict comparison of two entries by key. -/
def keyLT (a b : String × String) : Prop := a.1 < b.1

instance : IsTotal (String × String) keyLE := ⟨fun a b => le_total a.1 b.1⟩

instance : IsTrans (String × String) keyLE := ⟨fun _ _ _ hab hbc => le_trans hab hbc⟩

instance : IsAntisymm (String × String) keyLT :=
  ⟨fun _ _ h1 h2 => absurd (lt_trans h1 h2) (lt_irrefl _)⟩

lemma dictGet_eq_none_iff (m : StrMap) (k : String) :
    dictGet m k = none ↔ k ∉ m.map Prod.fst := by
  induction m with
  | nil => simp [dictGet]
  | cons p rest ih =>
    by_cases hp : p.1 = k
    · simp [dictGet, hp]
    · rw [dictGet, if_neg hp, ih]
      simp only [List.map_cons, List.mem_cons, not_or]
      constructor
      · intro h
        exact ⟨fun heq => hp heq.symm, h⟩
      · intro h
        exact h.2

lemma dictGet_eq_some_iff (m : StrMap) (k v : String) (h : NodupKeys m) :
    dictGet m k = some v ↔ (k, v) ∈ m := by
  induction m with
  | nil => simp [dictGet]
  | cons p rest ih =>
    simp only [NodupKeys, List.map_cons, List.nodup_cons] at h
    obtain ⟨h1, h2⟩ := h
    by_cases hp : p.1 = k
    · constructor
      · intro hv
        rw [dictGet, if_pos hp] at hv
        injection hv with hv
        have hkv : (k, v) = p := by
          rw [← hp, ← hv]
        exact List.mem_cons.2 (Or.inl hkv)
      · intro hmem
        rw [dictGet, if_pos hp]
        rcases List.mem_cons.1 hmem with heq | hmem
        · rw [← heq]
        · have hk : k ∈ rest.map Prod.fst := List.mem_map_of_mem Prod.fst hmem
          rw [← hp] at hk
          exact absurd hk h1
    · rw [dictGet, if_neg hp, ih h2, List.mem_cons]
      constructor
      · intro hmem
        exact Or.inr hmem
      · intro hmem
        rcases hmem with heq | hmem
        · exact absurd (congrArg Prod.fst heq).symm hp
        · exact hmem

lemma perm_dictGet (m m' : StrMap) (hperm : m.Perm m') (h : NodupKeys m) (k : String) :
    dictGet m k = dictGet m' k := by
  have h' : NodupKeys m' := ((hperm.map Prod.fst).nodup_iff).1 h
  cases hv : dictGet m k with
  | none =>
    have hk : k ∉ m.map Prod.fst := (dictGet_eq_none_iff m k).1 hv
    have hk' : k ∉ m'.map Prod.fst := fun hm => hk ((hperm.map Prod.fst).mem_iff.2 hm)
    exact ((dictGet_eq_none_iff m' k).2 hk').symm
  | some v =>
    have hm : (k, v) ∈ m := (dictGet_eq_some_iff m k v h).1 hv
    exact ((dictGet_eq_some_iff m' k v h').2 (hperm.mem_iff.1 hm)).symm

lemma pairwise_keyLT_of_keyLE (l : StrMap) (hs : l.Pairwise keyLE)
    (hn : NodupKeys l) : l.Pairwise keyLT := by
  induction l with
  | nil => exact List.Pairwise.nil
  | cons p rest ih =>
    simp only [NodupKeys, List.map_cons, List.nodup_cons] at hn
    rcases List.pairwise_cons.1 hs with ⟨hle, hrest⟩
    refine List.pairwise_cons.2 ⟨fun q hq => ?_, ih hrest hn.2⟩
    have hne : p.1 ≠ q.1 := fun h => hn.1 (h ▸ List.mem_map_of_mem Prod.fst hq)
    exact lt_of_le_of_ne (hle q hq) hne

lemma sorted_keyLT_dumpDoc (m : StrMap) (h : NodupKeys m) :
    List.Sorted keyLT (dumpDoc m) :=
  pairwise_keyLT_of_keyLE (dumpDoc m) (List.sorted_insertionSort keyLE m)
    (((List.perm_insertionSort keyLE m).map Prod.fst).nodup_iff.2 h)

/-- C7: writing a state map as a (sorted-keys) state document and reading
it back yields a map with exactly the same bindings, and any two
insertion orders of the same bindings serialise to the identical
document. -/
theorem c7_roundtrip_sorted (m : StrMap) (h : NodupKeys m) :
    (∀ k, dictGet (loadDoc (dumpDoc m)) k = dictGet m k) ∧
      ∀ m', m.Perm m' → dumpDoc m = dumpDoc m' := by
  constructor
  · intro k
    have hperm : (dumpDoc m).Perm m := List.perm_insertionSort keyLE m
    have hd : NodupKeys (dumpDoc m) := ((hperm.map Prod.fst).nodup_iff).2 h
    exact perm_dictGet (dumpDoc m) m hperm hd k
  · intro m' hmm'
    have h' : NodupKeys m' := ((hmm'.map Prod.fst).nodup_iff).1 h
    have hp : (dumpDoc m).Perm (dumpDoc m') :=
      (List.perm_insertionSort keyLE m).trans
        (hmm'.trans (List.perm_insertionSort keyLE m').symm)
    exact List.eq_of_perm_of_sorted hp (sorted_keyLT_dumpDoc m h)
      (sorted_keyLT_dumpDoc m' h')

/-- Witness for C7 on a concrete two-entry map and a reordering of it. -/
theorem c7_roundtrip_sorted_witness :
    dictGet (loadDoc (dumpDoc [("b", "2"), ("a", "1")])) "a" =
        dictGet [("b", "2"), ("a", "1")] "a" ∧
      dumpDoc [("b", "2"), ("a", "1")] = dumpDoc [("a", "1"), ("b", "2")] :=
  ⟨(c7_roundtrip_sorted [("b", "2"), ("a", "1")] (by decide)).1 "a",
    (c7_roundtrip_sorted [("b", "2"), ("a", "1")] (by decide)).2
      [("a", "1"), ("b", "2")] (List.Perm.swap _ _ _)⟩

/-! ## C3: what the final split actually returns -/

/-- The spec's reading of step 7 of section 4.2: the first two NON-EMPTY
segments of the split.  (Defined from the spec's words, for comparison
with the code; the code takes `parts[0], parts[1]` instead.) -/
def firstTwoNonEmpty (segs : List (List Char)) : Option (List Char × List Char) :=
  match segs.filter (fun s => !s.isEmpty) with
  | a :: b :: _ => some (a, b)
  | _ => none

/-- Counterexample to C3 as stated: on `owner//repo` the code returns
`(owner, "")` — the first two segments of the split, the second of which
is empty — while the first two non-empty segments are `(owner, repo)`. -/
theorem c3_counterexample :
    parseRepoUrlL ['o', 'w', 'n', 'e', 'r', '/', '/', 'r', 'e', 'p', 'o'] =
        .ok (['o', 'w', 'n', 'e', 'r'], []) ∧
      firstTwoNonEmpty
          (splitChar '/' (normalizeUrl ['o', 'w', 'n', 'e', 'r', '/', '/', 'r', 'e', 'p', 'o'])) =
        some (['o', 'w', 'n', 'e', 'r'], ['r', 'e', 'p', 'o']) ∧
      ([] : List Char) ≠ ['r', 'e', 'p', 'o'] := by decide

/-- C3 amended: after normalisation the parser splits on `'/'` and
returns the first two segments of the split — empty or not — as
(owner, name), and it fails with a parse error exactly when the split
yields fewer than two segments in total. -/
theorem c3_amended_split_behavior (url : List Char) :
    (∀ o n, parseRepoUrlL url = .ok (o, n) →
      ∃ rest, splitChar '/' (normalizeUrl url) = o :: n :: rest) ∧
    ((∃ e, parseRepoUrlL url = .error e) ↔
      (splitChar '/' (normalizeUrl url)).length < 2) := by
  rcases hsp : splitChar '/' (normalizeUrl url) with _ | ⟨a, _ | ⟨b, rest⟩⟩
  · constructor
    · intro o n h
      simp only [parseRepoUrlL, hsp] at h
      exact Except.noConfusion h
    · simp [parseRepoUrlL, hsp]
  · constructor
    · intro o n h
      simp only [parseRepoUrlL, hsp] at h
      exact Except.noConfusion h
    · simp [parseRepoUrlL, hsp]
  · constructor
    · intro o n h
      simp only [parseRepoUrlL, hsp] at h
      injection h with h
      rw [Prod.mk.injEq] at h
      exact ⟨rest, by rw [h.1, h.2]⟩
    · simp only [parseRepoUrlL, hsp, List.length_cons]
      constructor
      · intro ⟨e, he⟩
        exact Except.noConfusion he
      · intro hlt
        omega

/-- Witness for the amended C3 on a two-segment input. -/
theorem c3_amended_split_behavior_witness :
    ∃ rest, splitChar '/' (normalizeUrl ['a', '/', 'b']) = ['a'] :: ['b'] :: rest :=
  (c3_amended_split_behavior ['a', '/', 'b']).1 ['a'] ['b'] (by decide)

/-! ## C8: all URL forms parse like the canonical `owner/name` -/

/-- A character GitHub allows in an owner (user or organisation) name:
ASCII alphanumeric or hyphen. -/
def ownerChar (c : Char) : Bool := c.isAlphanum || c == '-'

/-- A character GitHub allows in a repository name: ASCII alphanumeric,
hyphen, underscore or dot. -/
def nameChar (c : Char) : Bool := c.isAlphanum || c == '-' || c == '_' || c == '.'

/-- A valid owner segment: non-empty, made of owner characters. -/
def ValidOwner (o : List Char) : Prop := o ≠ [] ∧ ∀ c ∈ o, ownerChar c = true

/-- A valid repository-name segment: non-empty, made of name characters,
and not ending in `.git` (GitHub forbids such repository names). -/
def ValidName (n : List Char) : Prop :=
  n ≠ [] ∧ (∀ c ∈ n, nameChar c = true) ∧ ¬ (['.', 'g', 'i', 't'] <:+ n)

/-- The concrete HTTPS prefix, split as scheme part plus marker. -/
def httpsPre : List Char := ['h', 't', 't', 'p', 's', ':', '/', '/']

lemma isPySpace_eq_true_iff (c : Char) :
    isPySpace c = true ↔
      c = ' ' ∨ c = '\t' ∨ c = '\n' ∨ c = '\r' ∨ c = '\x0b' ∨ c = '\x0c' := by
  simp [isPySpace, or_assoc]

lemma ownerChar_facts (c : Char) (h : ownerChar c = true) :
    isPySpace c = false ∧ c ≠ '.' ∧ c ≠ '/' ∧ c ≠ '#' ∧ c ≠ '?' ∧ c ≠ '@' := by
  refine ⟨?_, ?_, ?_, ?_, ?_, ?_⟩
  · by_contra hs
    have hs' : isPySpace c = true := by simpa using hs
    rcases (isPySpace_eq_true_iff c).1 hs' with rfl | rfl | rfl | rfl | rfl | rfl <;>
      exact absurd h (by decide)
  all_goals intro heq
  all_goals subst heq
  all_goals exact absurd h (by decide)

lemma nameChar_facts (c : Char) (h : nameChar c = true) :
    isPySpace c = false ∧ c ≠ '/' ∧ c ≠ '#' ∧ c ≠ '?' ∧ c ≠ '@' := by
  refine ⟨?_, ?_, ?_, ?_, ?_⟩
  · by_contra hs
    have hs' : isPySpace c = true := by simpa using hs
    rcases (isPySpace_eq_true_iff c).1 hs' with rfl | rfl | rfl | rfl | rfl | rfl <;>
      exact absurd h (by decide)
  all_goals intro heq
  all_goals subst heq
  all_goals exact absurd h (by decide)

lemma dropWhile_eq_self_of_all (p : Char → Bool) (l : List Char)
    (h : ∀ c ∈ l, p c = false) : l.dropWhile p = l := by
  cases l with
  | nil => rfl
  | cons c rest =>
    rw [List.dropWhile_cons, if_neg (by simp [h c (List.mem_cons_self c rest)])]

lemma takeWhile_eq_self_of_all (p : Char → Bool) (l : List Char)
    (h : ∀ c ∈ l, p c = true) : l.takeWhile p = l := by
  induction l with
  | nil => rfl
  | cons c rest ih =>
    rw [List.takeWhile_cons, if_pos (h c (List.mem_cons_self c rest))]
    rw [ih (fun c hc => h c (List.mem_cons_of_mem _ hc))]

lemma pyStrip_eq_self (l : List Char) (h : ∀ c ∈ l, isPySpace c = false) :
    pyStrip l = l := by
  unfold pyStrip
  rw [dropWhile_eq_self_of_all isPySpace l h,
    dropWhile_eq_self_of_all isPySpace l.reverse
      (fun c hc => h c (List.mem_reverse.1 hc)),
    List.reverse_reverse]

lemma dropPrefixL_some (s : List Char) :
    ∀ l r, dropPrefixL s l = some r → l = s ++ r := by
  induction s with
  | nil =>
    intro l r h
    injection h with h
  | cons a as ih =>
    intro l r h
    cases l with
    | nil => exact Option.noConfusion h
    | cons b bs =>
      rw [dropPrefixL] at h
      split at h
      · rename_i hab
        rw [List.cons_append, ← hab, ih bs r h]
      · exact Option.noConfusion h

lemma dropPrefixL_append_self (s : List Char) :
    ∀ r, dropPrefixL s (s ++ r) = some r := by
  induction s with
  | nil => intro r; rfl
  | cons a as ih =>
    intro r
    rw [List.cons_append, dropPrefixL, if_pos rfl, ih r]

lemma dropPrefixL_none_of_not_mem (s l : List Char) (c : Char)
    (hc : c ∈ s) (hl : c ∉ l) : dropPrefixL s l = none := by
  cases h : dropPrefixL s l with
  | none => rfl
  | some r =>
    have := dropPrefixL_some s l r h
    rw [this] at hl
    exact absurd (List.mem_append_left r hc) hl

lemma splitFirst_some (sep : List Char) :
    ∀ l a b, splitFirst sep l = some (a, b) → l = a ++ sep ++ b := by
  intro l
  induction l with
  | nil =>
    intro a b h
    rw [splitFirst] at h
    cases hd : dropPrefixL sep [] with
    | none => rw [hd] at h; exact Option.noConfusion h
    | some r =>
      rw [hd] at h
      simp only [Option.map_some'] at h
      injection h with h
      rw [Prod.mk.injEq] at h
      have hdec := dropPrefixL_some sep [] r hd
      rw [← h.1, ← h.2]
      simpa using hdec
  | cons c rest ih =>
    intro a b h
    rw [splitFirst] at h
    split at h
    · rename_i r hd
      injection h with h
      rw [Prod.mk.injEq] at h
      have hdec := dropPrefixL_some sep (c :: rest) r hd
      rw [← h.1, ← h.2]
      simpa using hdec
    · rename_i hd
      cases hs : splitFirst sep rest with
      | none => rw [hs] at h; exact Option.noConfusion h
      | some p =>
        rw [hs] at h
        simp only [Option.map_some'] at h
        injection h with h
        rw [Prod.mk.injEq] at h
        have hdec := ih p.1 p.2 (by rw [hs])
        rw [← h.1, ← h.2]
        simp only [List.cons_append]
        rw [← hdec]

lemma not_mem_of_all_ownerChar (o : List Char) (ho : ∀ c ∈ o, ownerChar c = true)
    (x : Char) (hx : ownerChar x = false) : x ∉ o := by
  intro hm
  rw [ho x hm] at hx
  exact Bool.noConfusion hx

lemma not_mem_of_all_nameChar (n : List Char) (hn : ∀ c ∈ n, nameChar c = true)
    (x : Char) (hx : nameChar x = false) : x ∉ n := by
  intro hm
  rw [hn x hm] at hx
  exact Bool.noConfusion hx

/-- A string with a single slash splits uniquely around that slash. -/
lemma slash_split_unique :
    ∀ (x y o n : List Char), x ++ '/' :: y = o ++ '/' :: n →
      '/' ∉ o → '/' ∉ n → x = o ∧ y = n := by
  intro x
  induction x with
  | nil =>
    intro y o n heq ho hn
    cases o with
    | nil =>
      rw [List.nil_append, List.nil_append] at heq
      injection heq with _ h2
      exact ⟨rfl, h2⟩
    | cons c o' =>
      rw [List.nil_append, List.cons_append] at heq
      injection heq with h1 _
      subst h1
      exact absurd (List.mem_cons_self _ _) ho
  | cons d x' ih =>
    intro y o n heq ho hn
    cases o with
    | nil =>
      rw [List.cons_append, List.nil_append] at heq
      injection heq with h1 h2
      rw [← h2] at hn
      exact absurd (List.mem_append_right x' (List.mem_cons_self '/' y)) hn
    | cons c o' =>
      rw [List.cons_append, List.cons_append] at heq
      injection heq with h1 h2
      obtain ⟨hx, hy⟩ := ih y o' n h2 (fun hm => ho (List.mem_cons_of_mem c hm)) hn
      subst h1
      rw [hx]
      exact ⟨rfl, hy⟩

/-- The first ten characters of the HTTPS marker. -/
def ghCore : List Char := ['g', 'i', 't', 'h', 'u', 'b', '.', 'c', 'o', 'm']

/-- `github.com/` cannot occur inside `o ++ / :: m` when the owner part
has no dot and neither part has a slash: the only slash present would
force `github.com` to be a suffix of the owner. -/
lemma splitFirst_ghMarker_none (o m : List Char)
    (hdot : '.' ∉ o) (hso : '/' ∉ o) (hsm : '/' ∉ m) :
    splitFirst ghMarker (o ++ '/' :: m) = none := by
  cases h : splitFirst ghMarker (o ++ '/' :: m) with
  | none => rfl
  | some p =>
    exfalso
    have hdec := splitFirst_some ghMarker _ p.1 p.2 (by rw [h])
    have hshape : o ++ '/' :: m = (p.1 ++ ghCore) ++ '/' :: p.2 := by
      rw [hdec]
      simp [ghMarker, ghCore, List.append_assoc]
    obtain ⟨ho2, _⟩ :=
      slash_split_unique (p.1 ++ ghCore) p.2 o m hshape.symm hso hsm
    have : '.' ∈ o := by
      rw [← ho2]
      exact List.mem_append_right p.1 (by decide)
    exact hdot this

/-- A prefix avoiding `c` of `m ++ c :: r` is already a prefix of `m`. -/
lemma prefix_append_cons :
    ∀ (p m r : List Char) (c : Char), p <+: m ++ c :: r → c ∉ p → p <+: m := by
  intro p
  induction p with
  | nil => intro m r c _ _; exact List.nil_prefix
  | cons a p' ih =>
    intro m r c h hc
    cases m with
    | nil =>
      rw [List.nil_append] at h
      obtain ⟨h1, _⟩ := List.cons_prefix_cons.1 h
      subst h1
      exact absurd (List.mem_cons_self _ _) hc
    | cons b m' =>
      rw [List.cons_append] at h
      obtain ⟨h1, h2⟩ := List.cons_prefix_cons.1 h
      exact List.cons_prefix_cons.2
        ⟨h1, ih m' r c h2 (fun hm => hc (List.mem_cons_of_mem a hm))⟩

lemma dropWhile_head_neg (p : Char → Bool) (c : Char) (l : List Char)
    (h : p c = false) : (c :: l).dropWhile p = c :: l := by
  rw [List.dropWhile_cons, if_neg (by simp [h])]

lemma stripSlashes_eq_self (a b : Char) (mid : List Char)
    (ha : a ≠ '/') (hb : b ≠ '/') :
    stripSlashes (a :: (mid ++ [b])) = a :: (mid ++ [b]) := by
  unfold stripSlashes
  rw [dropWhile_head_neg _ _ _ (by simp [ha])]
  rw [show (a :: (mid ++ [b])).reverse = b :: (mid.reverse ++ [a]) by simp]
  rw [dropWhile_head_neg _ _ _ (by simp [hb])]
  rw [show (b :: (mid.reverse ++ [a])).reverse = a :: (mid ++ [b]) by simp]

lemma stripSlashes_trailing (a b : Char) (mid : List Char)
    (ha : a ≠ '/') (hb : b ≠ '/') :
    stripSlashes ((a :: (mid ++ [b])) ++ ['/']) = a :: (mid ++ [b]) := by
  unfold stripSlashes
  rw [show (a :: (mid ++ [b])) ++ ['/'] = a :: (mid ++ [b] ++ ['/']) by simp]
  rw [dropWhile_head_neg _ _ _ (by simp [ha])]
  rw [show (a :: (mid ++ [b] ++ ['/'])).reverse = '/' :: b :: (mid.reverse ++ [a]) by simp]
  rw [List.dropWhile_cons, if_pos (by simp)]
  rw [dropWhile_head_neg _ _ _ (by simp [hb])]
  rw [show (b :: (mid.reverse ++ [a])).reverse = a :: (mid ++ [b]) by simp]

lemma stripDotGit_append (X : List Char) :
    stripDotGit (X ++ ['.', 'g', 'i', 't']) = X := by
  unfold stripDotGit
  rw [show (X ++ ['.', 'g', 'i', 't']).reverse = ['t', 'i', 'g', '.'] ++ X.reverse by simp]
  rw [dropPrefixL_append_self]
  simp

lemma stripDotGit_eq_self (o n : List Char)
    (hgit : ¬ (['.', 'g', 'i', 't'] <:+ n)) :
    stripDotGit (o ++ '/' :: n) = o ++ '/' :: n := by
  unfold stripDotGit
  cases hd : dropPrefixL ['t', 'i', 'g', '.'] (o ++ '/' :: n).reverse with
  | none => rfl
  | some r =>
    exfalso
    have hdec := dropPrefixL_some _ _ r hd
    have hpre : ['t', 'i', 'g', '.'] <+: (o ++ '/' :: n).reverse := ⟨r, hdec.symm⟩
    rw [show (o ++ '/' :: n).reverse = n.reverse ++ '/' :: o.reverse by simp] at hpre
    have hpre2 : ['t', 'i', 'g', '.'] <+: n.reverse :=
      prefix_append_cons _ _ _ _ hpre (by decide)
    have hsuf : (['.', 'g', 'i', 't'] : List Char) <:+ n :=
      List.reverse_prefix.1 hpre2
    exact hgit hsuf

lemma splitChar_no_sep (ch : Char) (n : List Char) (h : ch ∉ n) :
    splitChar ch n = [n] := by
  induction n with
  | nil => rfl
  | cons c rest ih =>
    have hne : ¬ c = ch := fun hcc => h (hcc ▸ List.mem_cons_self c rest)
    rw [splitChar, if_neg hne, ih (fun hm => h (List.mem_cons_of_mem c hm))]

lemma splitChar_append (ch : Char) (o n : List Char) (h : ch ∉ o) :
    splitChar ch (o ++ ch :: n) = o :: splitChar ch n := by
  induction o with
  | nil =>
    rw [List.nil_append, splitChar, if_pos rfl]
  | cons c o' ih =>
    have hne : ¬ c = ch := fun hcc => h (hcc ▸ List.mem_cons_self c o')
    rw [List.cons_append, splitChar, if_neg hne,
      ih (fun hm => h (List.mem_cons_of_mem c hm))]

lemma splitChar_slash_two (o n : List Char) (ho : '/' ∉ o) (hn : '/' ∉ n) :
    splitChar '/' (o ++ '/' :: n) = [o, n] := by
  rw [splitChar_append '/' o n ho, splitChar_no_sep '/' n hn]

lemma owner_part_facts (o : List Char) (hoc : ∀ c ∈ o, ownerChar c = true) :
    (∀ c ∈ o, isPySpace c = false) ∧ '/' ∉ o ∧ '@' ∉ o ∧ '.' ∉ o ∧
      ∀ c ∈ o, c ≠ '#' ∧ c ≠ '?' := by
  refine ⟨fun c hc => (ownerChar_facts c (hoc c hc)).1,
    not_mem_of_all_ownerChar o hoc '/' (by decide),
    not_mem_of_all_ownerChar o hoc '@' (by decide),
    not_mem_of_all_ownerChar o hoc '.' (by decide),
    fun c hc => ?_⟩
  have f := ownerChar_facts c (hoc c hc)
  exact ⟨f.2.2.2.1, f.2.2.2.2.1⟩

lemma name_part_facts (n : List Char) (hnc : ∀ c ∈ n, nameChar c = true) :
    (∀ c ∈ n, isPySpace c = false) ∧ '/' ∉ n ∧ '@' ∉ n ∧
      ∀ c ∈ n, c ≠ '#' ∧ c ≠ '?' := by
  refine ⟨fun c hc => (nameChar_facts c (hnc c hc)).1,
    not_mem_of_all_nameChar n hnc '/' (by decide),
    not_mem_of_all_nameChar n hnc '@' (by decide),
    fun c hc => ?_⟩
  have f := nameChar_facts c (hnc c hc)
  exact ⟨f.2.2.1, f.2.2.2.1⟩

lemma append_all_space (x y : List Char)
    (hx : ∀ c ∈ x, isPySpace c = false) (hy : ∀ c ∈ y, isPySpace c = false) :
    ∀ c ∈ x ++ y, isPySpace c = false := by
  intro c hc
  rcases List.mem_append.1 hc with h | h
  exacts [hx c h, hy c h]

lemma append_not_mem (x y : List Char) (c : Char) (hx : c ∉ x) (hy : c ∉ y) :
    c ∉ x ++ y := by
  intro hc
  rcases List.mem_append.1 hc with h | h
  exacts [hx h, hy h]

lemma append_all_hashq (x y : List Char)
    (hx : ∀ c ∈ x, c ≠ '#' ∧ c ≠ '?') (hy : ∀ c ∈ y, c ≠ '#' ∧ c ≠ '?') :
    ∀ c ∈ x ++ y, c ≠ '#' ∧ c ≠ '?' := by
  intro c hc
  rcases List.mem_append.1 hc with h | h
  exacts [hx c h, hy c h]

lemma form_all_space (P o m : List Char)
    (hP : ∀ c ∈ P, isPySpace c = false)
    (ho : ∀ c ∈ o, isPySpace c = false)
    (hm : ∀ c ∈ m, isPySpace c = false) :
    ∀ c ∈ P ++ (o ++ '/' :: m), isPySpace c = false := by
  intro c hc
  rcases List.mem_append.1 hc with h | h
  · exact hP c h
  rcases List.mem_append.1 h with h | h
  · exact ho c h
  rcases List.mem_cons.1 h with rfl | h
  · decide
  · exact hm c h

lemma form_not_at (P o m : List Char)
    (hP : '@' ∉ P) (ho : '@' ∉ o) (hm : '@' ∉ m) :
    '@' ∉ P ++ (o ++ '/' :: m) := by
  intro hc
  rcases List.mem_append.1 hc with h | h
  · exact hP h
  rcases List.mem_append.1 h with h | h
  · exact ho h
  rcases List.mem_cons.1 h with heq | h
  · exact absurd heq (by decide)
  · exact hm h

lemma form_all_hashq (o m : List Char)
    (ho : ∀ c ∈ o, c ≠ '#' ∧ c ≠ '?') (hm : ∀ c ∈ m, c ≠ '#' ∧ c ≠ '?') :
    ∀ c ∈ o ++ '/' :: m, c ≠ '#' ∧ c ≠ '?' := by
  intro c hc
  rcases List.mem_append.1 hc with h | h
  · exact ho c h
  rcases List.mem_cons.1 h with rfl | h
  · exact ⟨by decide, by decide⟩
  · exact hm c h

lemma takeBefore_hash_query (u : List Char) (h : ∀ c ∈ u, c ≠ '#' ∧ c ≠ '?') :
    takeBefore '?' (takeBefore '#' u) = u := by
  have h1 : takeBefore '#' u = u := by
    rw [takeBefore]
    exact takeWhile_eq_self_of_all _ _ (fun c hc => by simp [(h c hc).1])
  rw [h1, takeBefore]
  exact takeWhile_eq_self_of_all _ _ (fun c hc => by simp [(h c hc).2])

lemma tail_norm_plain (o n : List Char) (ho : ValidOwner o) (hn : ValidName n) :
    stripDotGit (stripSlashes (takeBefore '?' (takeBefore '#' (o ++ '/' :: n)))) =
      o ++ '/' :: n := by
  obtain ⟨hone, hoc⟩ := ho
  obtain ⟨hnne, hnc, hngit⟩ := hn
  have hof := owner_part_facts o hoc
  have hnf := name_part_facts n hnc
  rw [takeBefore_hash_query _ (form_all_hashq o n hof.2.2.2.2 hnf.2.2.2)]
  obtain ⟨a, o', rfl⟩ := List.exists_cons_of_ne_nil hone
  rcases n.eq_nil_or_concat' with rfl | ⟨m', b, rfl⟩
  · exact absurd rfl hnne
  have ha : a ≠ '/' := (ownerChar_facts a (hoc a (List.mem_cons_self a o'))).2.2.1
  have hb : b ≠ '/' := (nameChar_facts b (hnc b (by simp))).2.1
  have hshape : (a :: o') ++ '/' :: (m' ++ [b]) = a :: ((o' ++ '/' :: m') ++ [b]) := by
    simp
  rw [hshape, stripSlashes_eq_self a b _ ha hb, ← hshape]
  exact stripDotGit_eq_self (a :: o') (m' ++ [b]) hngit

lemma tail_norm_git (o n : List Char) (ho : ValidOwner o) (hn : ValidName n) :
    stripDotGit (stripSlashes (takeBefore '?'
        (takeBefore '#' (o ++ '/' :: (n ++ ['.', 'g', 'i', 't']))))) =
      o ++ '/' :: n := by
  obtain ⟨hone, hoc⟩ := ho
  obtain ⟨hnne, hnc, hngit⟩ := hn
  have hof := owner_part_facts o hoc
  have hnf := name_part_facts n hnc
  rw [takeBefore_hash_query _ (form_all_hashq o _ hof.2.2.2.2
    (append_all_hashq n _ hnf.2.2.2 (by decide)))]
  obtain ⟨a, o', rfl⟩ := List.exists_cons_of_ne_nil hone
  have ha : a ≠ '/' := (ownerChar_facts a (hoc a (List.mem_cons_self a o'))).2.2.1
  have hshape : (a :: o') ++ '/' :: (n ++ ['.', 'g', 'i', 't']) =
      a :: ((o' ++ '/' :: (n ++ ['.', 'g', 'i'])) ++ ['t']) := by
    simp
  rw [hshape, stripSlashes_eq_self a 't' _ ha (by decide), ← hshape]
  rw [show (a :: o') ++ '/' :: (n ++ ['.', 'g', 'i', 't']) =
      ((a :: o') ++ '/' :: n) ++ ['.', 'g', 'i', 't'] by simp]
  exact stripDotGit_append _

lemma tail_norm_slash (o n : List Char) (ho : ValidOwner o) (hn : ValidName n) :
    stripDotGit (stripSlashes (takeBefore '?'
        (takeBefore '#' (o ++ '/' :: (n ++ ['/']))))) =
      o ++ '/' :: n := by
  obtain ⟨hone, hoc⟩ := ho
  obtain ⟨hnne, hnc, hngit⟩ := hn
  have hof := owner_part_facts o hoc
  have hnf := name_part_facts n hnc
  rw [takeBefore_hash_query _ (form_all_hashq o _ hof.2.2.2.2
    (append_all_hashq n _ hnf.2.2.2 (by decide)))]
  obtain ⟨a, o', rfl⟩ := List.exists_cons_of_ne_nil hone
  rcases n.eq_nil_or_concat' with rfl | ⟨m', b, rfl⟩
  · exact absurd rfl hnne
  have ha : a ≠ '/' := (ownerChar_facts a (hoc a (List.mem_cons_self a o'))).2.2.1
  have hb : b ≠ '/' := (nameChar_facts b (hnc b (by simp))).2.1
  have hshape : (a :: o') ++ '/' :: ((m' ++ [b]) ++ ['/']) =
      (a :: ((o' ++ '/' :: m') ++ [b])) ++ ['/'] := by
    simp
  have hcore : a :: ((o' ++ '/' :: m') ++ [b]) = (a :: o') ++ '/' :: (m' ++ [b]) := by
    simp
  rw [hshape, stripSlashes_trailing a b _ ha hb, hcore]
  exact stripDotGit_eq_self (a :: o') (m' ++ [b]) hngit

lemma tail_norm_git_slash (o n : List Char) (ho : ValidOwner o) (hn : ValidName n) :
    stripDotGit (stripSlashes (takeBefore '?'
        (takeBefore '#' (o ++ '/' :: (n ++ ['.', 'g', 'i', 't', '/']))))) =
      o ++ '/' :: n := by
  obtain ⟨hone, hoc⟩ := ho
  obtain ⟨hnne, hnc, hngit⟩ := hn
  have hof := owner_part_facts o hoc
  have hnf := name_part_facts n hnc
  rw [takeBefore_hash_query _ (form_all_hashq o _ hof.2.2.2.2
    (append_all_hashq n _ hnf.2.2.2 (by decide)))]
  obtain ⟨a, o', rfl⟩ := List.exists_cons_of_ne_nil hone
  have ha : a ≠ '/' := (ownerChar_facts a (hoc a (List.mem_cons_self a o'))).2.2.1
  have hshape : (a :: o') ++ '/' :: (n ++ ['.', 'g', 'i', 't', '/']) =
      (a :: ((o' ++ '/' :: (n ++ ['.', 'g', 'i'])) ++ ['t'])) ++ ['/'] := by
    simp
  have hcore : a :: ((o' ++ '/' :: (n ++ ['.', 'g', 'i'])) ++ ['t']) =
      ((a :: o') ++ '/' :: n) ++ ['.', 'g', 'i', 't'] := by
    simp
  rw [hshape, stripSlashes_trailing a 't' _ ha (by decide), hcore]
  exact stripDotGit_append _

lemma normalizeUrl_no_marker (url : List Char)
    (h0 : pyStrip url = url)
    (h1 : dropPrefixL sshPrefix url = none)
    (h2 : splitFirst ghMarker url = none) :
    normalizeUrl url =
      stripDotGit (stripSlashes (takeBefore '?' (takeBefore '#' url))) := by
  simp only [normalizeUrl, h0, h1, h2]

lemma normalizeUrl_ssh_strips (url rest : List Char)
    (h0 : pyStrip url = url)
    (h1 : dropPrefixL sshPrefix url = some rest)
    (h2 : splitFirst ghMarker rest = none) :
    normalizeUrl url =
      stripDotGit (stripSlashes (takeBefore '?' (takeBefore '#' rest))) := by
  simp only [normalizeUrl, h0, h1, h2]

lemma normalizeUrl_https_strips (url pre rest : List Char)
    (h0 : pyStrip url = url)
    (h1 : dropPrefixL sshPrefix url = none)
    (h2 : splitFirst ghMarker url = some (pre, rest)) :
    normalizeUrl url =
      stripDotGit (stripSlashes (takeBefore '?' (takeBefore '#' rest))) := by
  simp only [normalizeUrl, h0, h1, h2]

lemma splitFirst_ghMarker_https (X : List Char) :
    splitFirst ghMarker (httpsPre ++ (ghMarker ++ X)) = some (httpsPre, X) := by
  simp [httpsPre, ghMarker, splitFirst, dropPrefixL, dropPrefixL_append_self]

lemma https_all_space (o m : List Char)
    (ho : ∀ c ∈ o, isPySpace c = false) (hm : ∀ c ∈ m, isPySpace c = false) :
    ∀ c ∈ httpsPre ++ (ghMarker ++ (o ++ '/' :: m)), isPySpace c = false := by
  intro c hc
  rcases List.mem_append.1 hc with h | h
  · exact (by decide : ∀ c ∈ httpsPre, isPySpace c = false) c h
  rcases List.mem_append.1 h with h | h
  · exact (by decide : ∀ c ∈ ghMarker, isPySpace c = false) c h
  · exact form_all_space [] o m (by decide) ho hm c h

lemma https_not_at (o m : List Char) (ho : '@' ∉ o) (hm : '@' ∉ m) :
    '@' ∉ httpsPre ++ (ghMarker ++ (o ++ '/' :: m)) :=
  append_not_mem _ _ '@' (by decide)
    (append_not_mem _ _ '@' (by decide) (form_not_at [] o m (by decide) ho hm))

lemma normalizeUrl_https_form (o m : List Char) (ho : ValidOwner o)
    (hm_sp : ∀ c ∈ m, isPySpace c = false) (hm_at : '@' ∉ m) :
    normalizeUrl (httpsPre ++ (ghMarker ++ (o ++ '/' :: m))) =
      stripDotGit (stripSlashes (takeBefore '?' (takeBefore '#' (o ++ '/' :: m)))) := by
  have hof := owner_part_facts o ho.2
  exact normalizeUrl_https_strips _ httpsPre _
    (pyStrip_eq_self _ (https_all_space o m hof.1 hm_sp))
    (dropPrefixL_none_of_not_mem _ _ '@' (by decide)
      (https_not_at o m hof.2.2.1 hm_at))
    (splitFirst_ghMarker_https _)

lemma normalizeUrl_ssh_form (o m : List Char) (ho : ValidOwner o)
    (hm_sp : ∀ c ∈ m, isPySpace c = false) (hm_slash : '/' ∉ m) :
    normalizeUrl (sshPrefix ++ (o ++ '/' :: m)) =
      stripDotGit (stripSlashes (takeBefore '?' (takeBefore '#' (o ++ '/' :: m)))) := by
  have hof := owner_part_facts o ho.2
  exact normalizeUrl_ssh_strips _ _
    (pyStrip_eq_self _ (form_all_space sshPrefix o m (by decide) hof.1 hm_sp))
    (dropPrefixL_append_self sshPrefix _)
    (splitFirst_ghMarker_none o m hof.2.2.2.1 hof.2.1 hm_slash)

lemma normalizeUrl_plain_form (o m : List Char) (ho : ValidOwner o)
    (hm_sp : ∀ c ∈ m, isPySpace c = false) (hm_at : '@' ∉ m) (hm_slash : '/' ∉ m) :
    normalizeUrl (o ++ '/' :: m) =
      stripDotGit (stripSlashes (takeBefore '?' (takeBefore '#' (o ++ '/' :: m)))) := by
  have hof := owner_part_facts o ho.2
  exact normalizeUrl_no_marker _
    (pyStrip_eq_self _ (form_all_space [] o m (by decide) hof.1 hm_sp))
    (dropPrefixL_none_of_not_mem _ _ '@' (by decide)
      (form_not_at [] o m (by decide) hof.2.2.1 hm_at))
    (splitFirst_ghMarker_none o m hof.2.2.2.1 hof.2.1 hm_slash)

/-- A suffix avoiding `c` of `m ++ c :: r` is already a suffix of `r`. -/
lemma suffix_append_cons (s m r : List Char) (c : Char)
    (h : s <:+ m ++ c :: r) (hc : c ∉ s) : s <:+ r := by
  have h' : s.reverse <+: (m ++ c :: r).reverse := List.reverse_prefix.mpr h
  rw [show (m ++ c :: r).reverse = r.reverse ++ c :: m.reverse from by simp] at h'
  have h'' : s.reverse <+: r.reverse :=
    prefix_append_cons s.reverse r.reverse m.reverse c h' (by simpa using hc)
  exact List.reverse_prefix.mp h''

/-- `github.com` cannot be a suffix of anything ending in `.git`:
the last characters differ. -/
lemma ghCore_not_suffix_dotGit (y : List Char) :
    ¬ (ghCore <:+ y ++ ['.', 'g', 'i', 't']) := by
  intro h
  have h' : ghCore.reverse <+: (y ++ ['.', 'g', 'i', 't']).reverse :=
    List.reverse_prefix.mpr h
  rw [show (y ++ ['.', 'g', 'i', 't']).reverse = 't' :: ('i' :: ('g' :: ('.' :: y.reverse)))
    from by simp] at h'
  rw [show ghCore.reverse = 'm' :: ['o', 'c', '.', 'b', 'u', 'h', 't', 'i', 'g']
    from by decide] at h'
  obtain ⟨h1, _⟩ := List.cons_prefix_cons.1 h'
  exact absurd h1 (by decide)

/-- `github.com/` does not occur in `o ++ / :: (x ++ /)` when the owner
has no dot or slash, `x` has no slash, and `github.com` is not a suffix
of `x`: an occurrence would have to end at one of the two slashes,
putting `github.com` at the end of either `o` or `x`. -/
lemma splitFirst_ghMarker_none_slash (o x : List Char)
    (hdot : '.' ∉ o) (hso : '/' ∉ o) (hsx : '/' ∉ x) (hgh : ¬ (ghCore <:+ x)) :
    splitFirst ghMarker (o ++ '/' :: (x ++ ['/'])) = none := by
  cases h : splitFirst ghMarker (o ++ '/' :: (x ++ ['/'])) with
  | none => rfl
  | some p =>
    exfalso
    have hdec := splitFirst_some ghMarker _ p.1 p.2 (by rw [h])
    have hshape : o ++ '/' :: (x ++ ['/']) = (p.1 ++ ghCore) ++ '/' :: p.2 := by
      rw [hdec]
      simp [ghMarker, ghCore, List.append_assoc]
    have hdec2 : (p.1 ++ ghCore) ++ '/' :: p.2 = (o ++ '/' :: x) ++ ['/'] := by
      rw [← hshape]
      simp
    rcases p.2.eq_nil_or_concat' with hnil | ⟨q, d, hq⟩
    · rw [hnil] at hdec2
      obtain ⟨hAB, _⟩ := List.append_inj' hdec2 rfl
      have hsuf : ghCore <:+ o ++ '/' :: x := ⟨p.1, hAB⟩
      exact hgh (suffix_append_cons ghCore o x '/' hsuf (by decide))
    · rw [hq] at hdec2
      have hshift : ((p.1 ++ ghCore) ++ '/' :: q) ++ [d] = (o ++ '/' :: x) ++ ['/'] := by
        rw [← hdec2]
        simp
      obtain ⟨hAB, _⟩ := List.append_inj' hshift rfl
      obtain ⟨ho2, _⟩ := slash_split_unique (p.1 ++ ghCore) q o x hAB hso hsx
      refine hdot ?_
      rw [← ho2]
      exact List.mem_append_right p.1 (by decide)

lemma normalizeUrl_ssh_slash_form (o x : List Char) (ho : ValidOwner o)
    (hx_sp : ∀ c ∈ x, isPySpace c = false) (hsx : '/' ∉ x)
    (hgh : ¬ (ghCore <:+ x)) :
    normalizeUrl (sshPrefix ++ (o ++ '/' :: (x ++ ['/']))) =
      stripDotGit (stripSlashes (takeBefore '?'
        (takeBefore '#' (o ++ '/' :: (x ++ ['/']))))) := by
  have hof := owner_part_facts o ho.2
  exact normalizeUrl_ssh_strips _ _
    (pyStrip_eq_self _ (form_all_space sshPrefix o (x ++ ['/']) (by decide) hof.1
      (append_all_space x _ hx_sp (by decide))))
    (dropPrefixL_append_self sshPrefix _)
    (splitFirst_ghMarker_none_slash o x hof.2.2.2.1 hof.2.1 hsx hgh)

lemma parseRepoUrlL_of_norm (u o n : List Char)
    (hnorm : normalizeUrl u = o ++ '/' :: n) (hso : '/' ∉ o) (hsn : '/' ∉ n) :
    parseRepoUrlL u = .ok (o, n) := by
  simp only [parseRepoUrlL, hnorm, splitChar_slash_two o n hso hsn]

/-- C8 (as amended): for any valid owner and repository name, the four
HTTPS forms (with or without `.git`, with or without a trailing slash)
and the SSH forms without a trailing slash (with or without `.git`), as
well as the SSH `.git` form with a trailing slash, all parse to the same
(owner, name) pair as the canonical `owner/name`, and that pair is
exactly (owner, name) — the extraction is the identity on both
components, hence case-preserving.  The remaining form, an SSH URL with
a trailing slash and no `.git`, agrees as well provided the repository
name does not end in `github.com`; without that proviso it can fail
(see the counterexample).  The lists spell the URL strings:
`httpsPre ++ ghMarker ++ ...` is `https://github.com/...` and
`sshPrefix ++ ...` is `git@github.com:...`. -/
theorem c8_url_forms_agree (o n : List Char) (ho : ValidOwner o) (hn : ValidName n) :
    parseRepoUrlL (o ++ '/' :: n) = .ok (o, n) ∧
    parseRepoUrlL (httpsPre ++ (ghMarker ++ (o ++ '/' :: n))) =
      parseRepoUrlL (o ++ '/' :: n) ∧
    parseRepoUrlL (httpsPre ++ (ghMarker ++ (o ++ '/' :: (n ++ ['.', 'g', 'i', 't'])))) =
      parseRepoUrlL (o ++ '/' :: n) ∧
    parseRepoUrlL (httpsPre ++ (ghMarker ++ (o ++ '/' :: (n ++ ['/'])))) =
      parseRepoUrlL (o ++ '/' :: n) ∧
    parseRepoUrlL (httpsPre ++ (ghMarker ++ (o ++ '/' :: (n ++ ['.', 'g', 'i', 't', '/'])))) =
      parseRepoUrlL (o ++ '/' :: n) ∧
    parseRepoUrlL (sshPrefix ++ (o ++ '/' :: (n ++ ['.', 'g', 'i', 't']))) =
      parseRepoUrlL (o ++ '/' :: n) ∧
    parseRepoUrlL (sshPrefix ++ (o ++ '/' :: n)) =
      parseRepoUrlL (o ++ '/' :: n) ∧
    parseRepoUrlL (sshPrefix ++ (o ++ '/' :: (n ++ ['.', 'g', 'i', 't', '/']))) =
      parseRepoUrlL (o ++ '/' :: n) ∧
    (¬ (ghCore <:+ n) →
      parseRepoUrlL (sshPrefix ++ (o ++ '/' :: (n ++ ['/']))) =
        parseRepoUrlL (o ++ '/' :: n)) := by
  have hof := owner_part_facts o ho.2
  have hnf := name_part_facts n hn.2.1
  have hcanon : parseRepoUrlL (o ++ '/' :: n) = .ok (o, n) := by
    refine parseRepoUrlL_of_norm _ o n ?_ hof.2.1 hnf.2.1
    rw [normalizeUrl_plain_form o n ho hnf.1 hnf.2.2.1 hnf.2.1]
    exact tail_norm_plain o n ho hn
  refine ⟨hcanon, ?_, ?_, ?_, ?_, ?_, ?_, ?_, ?_⟩
  · rw [hcanon]
    refine parseRepoUrlL_of_norm _ o n ?_ hof.2.1 hnf.2.1
    rw [normalizeUrl_https_form o n ho hnf.1 hnf.2.2.1]
    exact tail_norm_plain o n ho hn
  · rw [hcanon]
    refine parseRepoUrlL_of_norm _ o n ?_ hof.2.1 hnf.2.1
    rw [normalizeUrl_https_form o (n ++ ['.', 'g', 'i', 't']) ho
      (append_all_space n _ hnf.1 (by decide))
      (append_not_mem n _ '@' hnf.2.2.1 (by decide))]
    exact tail_norm_git o n ho hn
  · rw [hcanon]
    refine parseRepoUrlL_of_norm _ o n ?_ hof.2.1 hnf.2.1
    rw [normalizeUrl_https_form o (n ++ ['/']) ho
      (append_all_space n _ hnf.1 (by decide))
      (append_not_mem n _ '@' hnf.2.2.1 (by decide))]
    exact tail_norm_slash o n ho hn
  · rw [hcanon]
    refine parseRepoUrlL_of_norm _ o n ?_ hof.2.1 hnf.2.1
    rw [normalizeUrl_https_form o (n ++ ['.', 'g', 'i', 't', '/']) ho
      (append_all_space n _ hnf.1 (by decide))
      (append_not_mem n _ '@' hnf.2.2.1 (by decide))]
    exact tail_norm_git_slash o n ho hn
  · rw [hcanon]
    refine parseRepoUrlL_of_norm _ o n ?_ hof.2.1 hnf.2.1
    rw [normalizeUrl_ssh_form o (n ++ ['.', 'g', 'i', 't']) ho
      (append_all_space n _ hnf.1 (by decide))
      (append_not_mem n _ '/' hnf.2.1 (by decide))]
    exact tail_norm_git o n ho hn
  · rw [hcanon]
    refine parseRepoUrlL_of_norm _ o n ?_ hof.2.1 hnf.2.1
    rw [normalizeUrl_ssh_form o n ho hnf.1 hnf.2.1]
    exact tail_norm_plain o n ho hn
  · rw [hcanon]
    refine parseRepoUrlL_of_norm _ o n ?_ hof.2.1 hnf.2.1
    have hshape : n ++ ['.', 'g', 'i', 't', '/'] = (n ++ ['.', 'g', 'i', 't']) ++ ['/'] := by
      simp
    rw [hshape, normalizeUrl_ssh_slash_form o (n ++ ['.', 'g', 'i', 't']) ho
      (append_all_space n _ hnf.1 (by decide))
      (append_not_mem n _ '/' hnf.2.1 (by decide))
      (ghCore_not_suffix_dotGit n), ← hshape]
    exact tail_norm_git_slash o n ho hn
  · intro hni
    rw [hcanon]
    refine parseRepoUrlL_of_norm _ o n ?_ hof.2.1 hnf.2.1
    rw [normalizeUrl_ssh_slash_form o n ho hnf.1 hnf.2.1 hni]
    exact tail_norm_slash o n ho hn

/-- Counterexample to C8 as stated: the repository name `github.com` is
a valid GitHub repository name, yet the SSH URL with a trailing slash
`git@github.com:owner/github.com/` raises the parse `ValueError` (the
second `github.com/` cut leaves the empty string), while the canonical
form `owner/github.com` parses to `(owner, github.com)`. -/
theorem c8_counterexample :
    parseRepoUrlL (sshPrefix ++ (['o', 'w', 'n', 'e', 'r'] ++ '/' ::
        (['g', 'i', 't', 'h', 'u', 'b', '.', 'c', 'o', 'm'] ++ ['/']))) =
      .error "Could not parse GitHub repo from URL" ∧
    parseRepoUrlL (['o', 'w', 'n', 'e', 'r'] ++ '/' ::
        ['g', 'i', 't', 'h', 'u', 'b', '.', 'c', 'o', 'm']) =
      .ok (['o', 'w', 'n', 'e', 'r'], ['g', 'i', 't', 'h', 'u', 'b', '.', 'c', 'o', 'm']) ∧
    ValidOwner ['o', 'w', 'n', 'e', 'r'] ∧
    ValidName ['g', 'i', 't', 'h', 'u', 'b', '.', 'c', 'o', 'm'] := by
  exact ⟨by decide, by decide, ⟨by decide, by decide⟩, by decide, by decide, by decide⟩

/-- Witness for the amended C8 at owner `a`, name `b`: the HTTPS `.git`
form and the SSH trailing-slash form (name not ending in `github.com`)
parse like the canonical form, which parses to exactly that pair. -/
theorem c8_url_forms_agree_witness :
    parseRepoUrlL (httpsPre ++ (ghMarker ++ (['a'] ++ '/' :: (['b'] ++ ['.', 'g', 'i', 't'])))) =
        parseRepoUrlL (['a'] ++ '/' :: ['b']) ∧
      parseRepoUrlL (sshPrefix ++ (['a'] ++ '/' :: (['b'] ++ ['/']))) =
        parseRepoUrlL (['a'] ++ '/' :: ['b']) ∧
      parseRepoUrlL (['a'] ++ '/' :: ['b']) = .ok (['a'], ['b']) := by
  have h := c8_url_forms_agree ['a'] ['b'] ⟨by decide, by decide⟩
    ⟨by decide, by decide, by decide⟩
  exact ⟨h.2.2.1, h.2.2.2.2.2.2.2.2 (by decide), h.1⟩

/-- Witness for C10: a list-valued document and a string-valued
`repositories` field both collapse to the empty state map. -/
theorem c10_state_load_resilient_witness :
    loadStateMap (some (.list [.str "x"])) = [] ∧
      loadStateMap (some (.dict [("repositories", .str "x")])) = [] :=
  ⟨c10_state_load_resilient.2.2.1 (.list [.str "x"]) (fun _ h => PyVal.noConfusion h),
    c10_state_load_resilient.2.2.2.2 [("repositories", .str "x")] (.str "x") rfl
      (fun _ h => PyVal.noConfusion h)⟩
